import Mathlib

/-!
Verification of the directed-graph library in `student_code.py`.

The source defines a class hierarchy
`VersatileDigraph → SortableDigraph → TraversableDigraph → DAG` over a single
mutable state: `self.nodes` (a Python `set` of node identifiers) and
`self.edges` (a Python `dict` mapping a node to the `set` of its successors).
We model that state as a `Digraph` record.  Python sets and dict key sequences
are modelled as duplicate-free lists in insertion order; every operation below
is translated clause-by-clause from the corresponding Python method.

Two methods of the source (`TraversableDigraph.dfs` and
`TraversableDigraph.bfs`) read the attribute `self._edges`, which no class in
the hierarchy ever assigns (`VersatileDigraph.__init__` assigns `self.edges`).
In Python this access raises `AttributeError` at run time.  The embedding keeps
this behaviour explicit: a traversal is a `GenRun`, the finite sequence of
values a generator yields together with the exception (if any) that ends it.
-/

namespace StudentCode

/-- Run-time exceptions the source can raise: the `AttributeError` produced by
evaluating the unassigned attribute `self._edges`, and the
`Exception("Adding this edge would create a cycle.")` of `DAG.add_edge`. -/
inductive PyErr : Type
  | attributeError : PyErr
  | cycleError : PyErr
  deriving DecidableEq, Repr

/-- The observable outcome of running a Python generator to its end: the list
of yielded values, and the exception that terminated it, if it did not finish
normally. -/
structure GenRun (α : Type) : Type where
  yielded : List α
  error : Option PyErr
  deriving DecidableEq, Repr

/-- State of a `VersatileDigraph` object: `self.nodes` (a set, modelled as a
duplicate-free list in insertion order) and `self.edges` (a dict from node to
its successor set, modelled as an association list whose values are
duplicate-free lists). -/
structure Digraph (α : Type) : Type where
  nodes : List α
  edges : List (α × List α)
  deriving DecidableEq, Repr

variable {α : Type} [DecidableEq α]

/-- Dict lookup `m.get(k)` / `m[k]` on the association-list model. -/
def dictGet (m : List (α × List α)) (k : α) : Option (List α) :=
  match m with
  | [] => none
  | (k', v) :: rest => if k = k' then some v else dictGet rest k

/-- The key sequence of a dict. -/
def dictKeys (m : List (α × List α)) : List α :=
  m.map Prod.fst

/-- Python `set.add`: insert the element if it is not already present. -/
def setAdd (l : List α) (v : α) : List α :=
  if v ∈ l then l else l ++ [v]

/-- `self.edges[u].add(v)`: update the entry of key `u` by set-inserting `v`.
In the source this statement runs only after `add_node(u)`, so the key `u` is
always present; on a missing key the model leaves the dict unchanged. -/
def dictAddEdge (m : List (α × List α)) (u v : α) : List (α × List α) :=
  match m with
  | [] => []
  | (k, l) :: rest =>
      if u = k then (k, setAdd l v) :: rest else (k, l) :: dictAddEdge rest u v

/-- `VersatileDigraph.__init__`: empty node set, empty adjacency dict. -/
def emptyGraph : Digraph α :=
  { nodes := [], edges := [] }

/-- `VersatileDigraph.add_node`: `self.nodes.add(node)`, and
`self.edges[node] = set()` when the key is absent. -/
def add_node (g : Digraph α) (n : α) : Digraph α :=
  { nodes := if n ∈ g.nodes then g.nodes else g.nodes ++ [n]
    edges := if (dictGet g.edges n).isSome then g.edges else g.edges ++ [(n, [])] }

/-- `VersatileDigraph.add_edge`: `add_node(u)`, `add_node(v)`, then
`self.edges[u].add(v)`. -/
def add_edge (g : Digraph α) (u v : α) : Digraph α :=
  let g2 := add_node (add_node g u) v
  { g2 with edges := dictAddEdge g2.edges u v }

/-- `VersatileDigraph.get_neighbors`: `self.edges.get(node, set())`. -/
def get_neighbors (g : Digraph α) (n : α) : List α :=
  (dictGet g.edges n).getD []

/-- `VersatileDigraph.get_all_nodes`: `list(self.nodes)`. -/
def get_all_nodes (g : Digraph α) : List α :=
  g.nodes

/-- The edge relation of the stored graph: `step g u v` holds when `v` is a
stored successor of `u`. -/
def step (g : Digraph α) (u v : α) : Prop :=
  v ∈ get_neighbors g u

instance (g : Digraph α) (u v : α) : Decidable (step g u v) := by
  unfold step
  exact inferInstance

/-- The predecessors of `n` among the stored nodes: all `u` with an edge
`u -> n`. -/
def predsList (g : Digraph α) (n : α) : List α :=
  g.nodes.filter (fun u => decide (n ∈ get_neighbors g u))

/-- The graph contains no directed cycle: no node reaches itself by a
nonempty path. -/
def Acyclic (g : Digraph α) : Prop :=
  ∀ n, ¬ Relation.TransGen (step g) n n

/-- The in-degree computation of `SortableDigraph.top_sort`, inner loop:
`for neighbor in ...: in_degree[neighbor] += 1`. -/
def bumpMany (f : α → Int) (vs : List α) : α → Int :=
  vs.foldl (fun f v => Function.update f v (f v + 1)) f

/-- The in-degree table of `SortableDigraph.top_sort`:
`in_degree = {n: 0 for n in self.nodes}` followed by one increment per stored
edge.  The Python dict is keyed by `self.nodes`; the model is the total
function that agrees with the dict on its keys (the algorithm reads it only
at stored nodes and their neighbors). -/
def inDegreeFun (g : Digraph α) : α → Int :=
  g.nodes.foldl (fun f u => bumpMany f (get_neighbors g u)) (fun _ => 0)

/-- Body of the `while queue` loop of `top_sort`, neighbor pass: decrement
each neighbor's in-degree in adjacency order, enqueueing a neighbor the moment
its in-degree becomes 0. -/
def processNeighbors (indeg : α → Int) (ns : List α) (queue : List α) :
    (α → Int) × List α :=
  ns.foldl
    (fun p v =>
      let d := p.1 v - 1
      (Function.update p.1 v d, if d = 0 then p.2 ++ [v] else p.2))
    (indeg, queue)

/-- The `while queue` loop of `top_sort`: pop the queue head, append it to the
result, decrement its neighbors.  The source loop is unbounded; the model
carries fuel, and `top_sort` supplies `nodes.length + 1`, which is proved
sufficient (each iteration appends a distinct stored node, see
`kahnLoop_post`). -/
def kahnLoop (g : Digraph α) : Nat → (α → Int) → List α → List α → List α
  | 0, _, _, out => out
  | _ + 1, _, [], out => out
  | fuel + 1, indeg, current :: rest, out =>
      let p := processNeighbors indeg (get_neighbors g current) rest
      kahnLoop g fuel p.1 p.2 (out ++ [current])

/-- `SortableDigraph.top_sort` (Kahn's algorithm): compute in-degrees, seed
the queue with the stored nodes of in-degree 0 in node-set order, then run the
loop. -/
def top_sort (g : Digraph α) : List α :=
  kahnLoop g (g.nodes.length + 1) (inDegreeFun g)
    (g.nodes.filter (fun n => decide (inDegreeFun g n = 0))) []

/-- `TraversableDigraph.dfs(start)` run to exhaustion.  `_dfs(start)` finds
`start` not in the (empty) visited set, marks it, yields it, and then
evaluates `self._edges.get(node, [])`.  No class in the hierarchy ever assigns
`self._edges` (the adjacency dict is `self.edges`), so that attribute lookup
raises `AttributeError` before any neighbor is read or any recursive call is
made.  Every run therefore yields exactly the start node and then raises. -/
def dfs (g : Digraph α) (start : α) : GenRun α :=
  if start ∈ ([] : List α) then { yielded := [], error := none }
  else { yielded := [start], error := some PyErr.attributeError }

/-- `TraversableDigraph.bfs(start)` run to exhaustion.  The queue is seeded
with `start`, which is popped and yielded; the neighbor loop then evaluates
`self._edges.get(node, [])`, and as in `dfs` the unassigned attribute
`self._edges` raises `AttributeError`.  Every run yields exactly the start
node and then raises. -/
def bfs (g : Digraph α) (start : α) : GenRun α :=
  { yielded := [start], error := some PyErr.attributeError }

/-- The `for node in self.dfs(end)` loop of `DAG.add_edge`: pull yielded
values one at a time, raising the cycle error as soon as a value equals
`start`; if the generator is exhausted without a match, its terminating
exception (if any) propagates; otherwise the loop completes normally. -/
def dagScan (start : α) : List α → Option PyErr → Option PyErr
  | [], e => e
  | y :: ys, e => if y = start then some PyErr.cycleError else dagScan start ys e

/-- `DAG.add_edge`: iterate `self.dfs(end)` looking for `start`; on a match
raise the cycle error, otherwise fall through to the inherited
`VersatileDigraph.add_edge`.  An exception leaves the graph unmodified, so an
error result carries no new state. -/
def DAG.add_edge (g : Digraph α) (start fin : α) : Except PyErr (Digraph α) :=
  match dagScan start (dfs g fin).yielded (dfs g fin).error with
  | some err => Except.error err
  | none => Except.ok (StudentCode.add_edge g start fin)

/-- A client call on the mutation surface of the store. -/
inductive Op (α : Type) : Type
  | node (n : α) : Op α
  | edge (u v : α) : Op α

/-- Apply one mutation to the store. -/
def applyOp (g : Digraph α) : Op α → Digraph α
  | .node n => add_node g n
  | .edge u v => add_edge g u v

/-- The graph produced from a fresh `VersatileDigraph()` by a sequence of
`add_node` / `add_edge` calls. -/
def runOps (ops : List (Op α)) : Digraph α :=
  ops.foldl applyOp emptyGraph

/-- Structural well-formedness of the stored state.  Every graph reachable
from `__init__` through the mutation surface satisfies it (see
`wf_runOps`): the node set and the adjacency key set are duplicate-free and
equal, and every stored successor set is duplicate-free and contained in the
node set. -/
@[mk_iff]
structure WF (g : Digraph α) : Prop where
  nodesNodup : g.nodes.Nodup
  keysNodup : (g.edges.map Prod.fst).Nodup
  keysSub : ∀ p ∈ g.edges, p.1 ∈ g.nodes
  keysFull : ∀ n ∈ g.nodes, n ∈ g.edges.map Prod.fst
  adjOk : ∀ p ∈ g.edges, p.2.Nodup ∧ ∀ v ∈ p.2, v ∈ g.nodes

instance (g : Digraph α) : Decidable (WF g) :=
  decidable_of_iff _ (wF_iff g).symm

/-! ### Association-list dictionary lemmas -/

theorem mem_setAdd {l : List α} {v w : α} : w ∈ setAdd l v ↔ w ∈ l ∨ w = v := by
  by_cases h : v ∈ l
  · rw [setAdd, if_pos h]
    constructor
    · exact Or.inl
    · rintro (hw | rfl)
      · exact hw
      · exact h
  · rw [setAdd, if_neg h]
    simp [List.mem_append]

theorem mem_setAdd_self {l : List α} (v : α) : v ∈ setAdd l v :=
  mem_setAdd.mpr (Or.inr rfl)

theorem setAdd_nodup {l : List α} {v : α} (h : l.Nodup) : (setAdd l v).Nodup := by
  unfold setAdd
  split
  · exact h
  · next hv => simpa [List.nodup_append] using ⟨h, hv⟩

theorem setAdd_mem_eq {l : List α} {v : α} (h : v ∈ l) : setAdd l v = l := by
  simp [setAdd, h]

theorem dictGet_isSome_iff {m : List (α × List α)} {k : α} :
    (dictGet m k).isSome ↔ k ∈ dictKeys m := by
  induction m with
  | nil => simp [dictGet, dictKeys]
  | cons p rest ih =>
    obtain ⟨k', v⟩ := p
    by_cases hk : k = k' <;> simp [dictGet, dictKeys, hk] at ih ⊢
    exact ih

theorem dictGet_eq_none_iff {m : List (α × List α)} {k : α} :
    dictGet m k = none ↔ k ∉ dictKeys m := by
  rw [← dictGet_isSome_iff, Option.isSome_iff_ne_none]
  tauto

theorem dictGet_mem {m : List (α × List α)} {k : α} {l : List α}
    (h : dictGet m k = some l) : (k, l) ∈ m := by
  induction m with
  | nil => simp [dictGet] at h
  | cons p rest ih =>
    obtain ⟨k', v⟩ := p
    by_cases hk : k = k'
    · subst hk
      simp [dictGet] at h
      simp [h]
    · simp [dictGet, hk] at h
      simp [ih h]

theorem dictKeys_dictAddEdge (m : List (α × List α)) (u v : α) :
    dictKeys (dictAddEdge m u v) = dictKeys m := by
  induction m with
  | nil => rfl
  | cons p rest ih =>
    obtain ⟨k, l⟩ := p
    by_cases hk : u = k <;> simp [dictAddEdge, dictKeys, hk] at ih ⊢
    exact ih

theorem dictGet_dictAddEdge_self {m : List (α × List α)} {u : α} {l : List α}
    (v : α) (h : dictGet m u = some l) :
    dictGet (dictAddEdge m u v) u = some (setAdd l v) := by
  induction m with
  | nil => simp [dictGet] at h
  | cons p rest ih =>
    obtain ⟨k, l'⟩ := p
    by_cases hk : u = k
    · subst hk
      simp [dictGet] at h
      subst h
      simp [dictAddEdge, dictGet]
    · simp [dictGet, hk] at h
      simp [dictAddEdge, dictGet, hk, ih h]

theorem dictGet_dictAddEdge_of_ne {m : List (α × List α)} {k u : α} (v : α)
    (h : k ≠ u) : dictGet (dictAddEdge m u v) k = dictGet m k := by
  induction m with
  | nil => rfl
  | cons p rest ih =>
    obtain ⟨k', l'⟩ := p
    by_cases hk : u = k'
    · subst hk
      simp [dictAddEdge, dictGet, h]
    · by_cases hkk : k = k' <;> simp [dictAddEdge, dictGet, hk, hkk, ih]

theorem dictAddEdge_idem (m : List (α × List α)) (u v : α) :
    dictAddEdge (dictAddEdge m u v) u v = dictAddEdge m u v := by
  induction m with
  | nil => rfl
  | cons p rest ih =>
    obtain ⟨k, l⟩ := p
    by_cases hk : u = k
    · subst hk
      simp [dictAddEdge, setAdd_mem_eq (mem_setAdd_self v)]
    · simp [dictAddEdge, hk, ih]

theorem mem_dictAddEdge {m : List (α × List α)} {u v : α} {p : α × List α}
    (h : p ∈ dictAddEdge m u v) :
    ∃ q ∈ m, p.1 = q.1 ∧ (p.2 = q.2 ∨ p.2 = setAdd q.2 v) := by
  induction m with
  | nil => simp [dictAddEdge] at h
  | cons q' rest ih =>
    obtain ⟨k, l⟩ := q'
    by_cases hk : u = k
    · subst hk
      simp [dictAddEdge] at h
      rcases h with rfl | h
      · exact ⟨(u, l), by simp, rfl, Or.inr rfl⟩
      · exact ⟨(p.1, p.2), by simp [h], rfl, Or.inl rfl⟩
    · simp [dictAddEdge, hk] at h
      rcases h with rfl | h
      · exact ⟨(k, l), by simp, rfl, Or.inl rfl⟩
      · obtain ⟨q, hq, h1, h2⟩ := ih h
        exact ⟨q, by simp [hq], h1, h2⟩

/-! ### Lemmas about `add_node` and `add_edge` -/

theorem mem_nodes_add_node {g : Digraph α} {n k : α} :
    k ∈ (add_node g n).nodes ↔ k ∈ g.nodes ∨ k = n := by
  show k ∈ (if n ∈ g.nodes then g.nodes else g.nodes ++ [n]) ↔ _
  by_cases h : n ∈ g.nodes
  · rw [if_pos h]
    constructor
    · exact Or.inl
    · rintro (hk | rfl)
      · exact hk
      · exact h
  · rw [if_neg h]
    simp [List.mem_append]

theorem mem_keys_add_node {g : Digraph α} {n k : α} :
    k ∈ dictKeys (add_node g n).edges ↔ k ∈ dictKeys g.edges ∨ k = n := by
  show k ∈ dictKeys (if (dictGet g.edges n).isSome then g.edges else g.edges ++ [(n, [])]) ↔ _
  by_cases h : (dictGet g.edges n).isSome
  · rw [if_pos h]
    constructor
    · exact Or.inl
    · rintro (hk | rfl)
      · exact hk
      · exact dictGet_isSome_iff.mp h
  · rw [if_neg h]
    simp [dictKeys, List.mem_append]

theorem add_node_eq_self {g : Digraph α} {n : α} (h1 : n ∈ g.nodes)
    (h2 : n ∈ dictKeys g.edges) : add_node g n = g := by
  obtain ⟨ns, es⟩ := g
  unfold add_node
  simp only at h1 h2 ⊢
  rw [if_pos h1, if_pos (dictGet_isSome_iff.mpr h2)]

theorem nodes_add_edge (g : Digraph α) (u v : α) :
    (add_edge g u v).nodes = (add_node (add_node g u) v).nodes := rfl

theorem mem_nodes_add_edge {g : Digraph α} {u v k : α} :
    k ∈ (add_edge g u v).nodes ↔ k ∈ g.nodes ∨ k = u ∨ k = v := by
  rw [nodes_add_edge, mem_nodes_add_node, mem_nodes_add_node]
  tauto

/-! ### Claim theorems: error behaviour of the traversal layer and the guard -/

/-- **C1.** On the acyclic-guarded class, the claim says `add_edge(src, dst)`
succeeds (inserting the edge) whenever no directed path from `dst` to `src`
exists — in particular inserting `A -> B` into an empty `DAG` must succeed.
The code instead raises `AttributeError`: `DAG.add_edge` iterates
`self.dfs(end)`, whose body reads the never-assigned attribute `self._edges`.
Evaluated on the failing input (empty graph, edge `0 -> 1`, no `1 ~> 0` path),
the call errors and no edge is inserted. -/
theorem c1_dag_add_edge_raises_attribute_error :
    DAG.add_edge (emptyGraph : Digraph Nat) 0 1 = Except.error PyErr.attributeError := rfl

/-- **C4.** The claim says `dfs(start)` and `bfs(start)` yield exactly the
nodes reachable from `start`.  On the graph with edge `0 -> 1` (so node `1` is
reachable from `0` and should be yielded), both traversals yield only the
start node and then terminate with `AttributeError`, because their bodies read
the never-assigned attribute `self._edges`. -/
theorem c4_dfs_bfs_raise_attribute_error :
    dfs (runOps [Op.edge 0 1]) 0 = { yielded := [0], error := some PyErr.attributeError } ∧
    bfs (runOps [Op.edge 0 1]) 0 = { yielded := [0], error := some PyErr.attributeError } ∧
    1 ∈ get_neighbors (runOps [Op.edge 0 1]) 0 ∧
    1 ∉ (dfs (runOps [Op.edge 0 1]) 0).yielded ∧
    1 ∉ (bfs (runOps [Op.edge 0 1]) 0).yielded := by
  refine ⟨rfl, rfl, by decide, by decide, by decide⟩

/-- **C5.** The claim describes the order of nodes within the sequence
produced by `bfs(start)`.  On the graph with edge `0 -> 1`, node `1` is at BFS
distance 1 from start `0`, yet the produced run yields only `[0]` and raises
`AttributeError` (the body reads the never-assigned attribute `self._edges`),
so the node at distance 1 never appears in the output at all. -/
theorem c5_bfs_output_truncated_by_attribute_error :
    bfs (runOps [Op.edge 0 1]) 0 = { yielded := [0], error := some PyErr.attributeError } ∧
    1 ∈ get_neighbors (runOps [Op.edge 0 1]) 0 ∧
    1 ∉ (bfs (runOps [Op.edge 0 1]) 0).yielded := by
  refine ⟨rfl, by decide, by decide⟩

/-- **C10.** Self-loop rejection at the guarded interface: for every graph
state and every identifier `x` (present in the graph or not),
`DAG.add_edge(x, x)` raises the cycle error — the generator's first yielded
value is the destination itself, which equals the source, and the error is
raised before the base insertion runs, so the graph is left unchanged (the
call returns no new state). -/
theorem c10_dag_self_loop_raises_cycle_error (g : Digraph α) (x : α) :
    DAG.add_edge g x x = Except.error PyErr.cycleError := by
  simp [DAG.add_edge, dfs, dagScan]

/-- **C8.** After `add_edge(n, m)`, both endpoints are members of the node set
(missing endpoints are auto-created), and `m` is contained in the neighbors of
`n`. -/
theorem c8_add_edge_creates_endpoints_and_neighbor (g : Digraph α) (n m : α) :
    n ∈ (add_edge g n m).nodes ∧ m ∈ (add_edge g n m).nodes ∧
    m ∈ get_neighbors (add_edge g n m) n := by
  refine ⟨mem_nodes_add_edge.mpr (Or.inr (Or.inl rfl)),
    mem_nodes_add_edge.mpr (Or.inr (Or.inr rfl)), ?_⟩
  have hkey : n ∈ dictKeys (add_node (add_node g n) m).edges :=
    mem_keys_add_node.mpr (Or.inl (mem_keys_add_node.mpr (Or.inr rfl)))
  obtain ⟨l, hl⟩ := Option.isSome_iff_exists.mp (dictGet_isSome_iff.mpr hkey)
  have hng : get_neighbors (add_edge g n m) n = setAdd l m := by
    simp [get_neighbors, add_edge, dictGet_dictAddEdge_self m hl]
  rw [hng]
  exact mem_setAdd_self m

/-! ### Duplicate-edge semantics (C6) -/

/-- **C6, counterexample.** The claim says a repeated `add_edge(u, v)` stores
multiple edge records between the same ordered pair.  The store keeps
successors in a Python `set` (`self.edges[u].add(v)`), so the second insertion
is absorbed: the state after two insertions of `0 -> 1` equals the state after
one, and the successor collection of `0` holds a single record. -/
theorem c6_counterexample :
    add_edge (add_edge (emptyGraph : Digraph Nat) 0 1) 0 1
      = add_edge (emptyGraph : Digraph Nat) 0 1 ∧
    get_neighbors (add_edge (add_edge (emptyGraph : Digraph Nat) 0 1) 0 1) 0 = [1] ∧
    ¬ 1 < (get_neighbors (add_edge (add_edge (emptyGraph : Digraph Nat) 0 1) 0 1) 0).length :=
  ⟨rfl, rfl, by decide⟩

/-- **C6, amended.** Edge insertion de-duplicates: the adjacency structure is
a set per source node, so calling `add_edge(u, v)` a second time is a complete
no-op on the graph state (and the graph stores no edge weights at all). -/
theorem c6_amended_add_edge_idempotent (g : Digraph α) (u v : α) :
    add_edge (add_edge g u v) u v = add_edge g u v := by
  have hu : u ∈ (add_edge g u v).nodes := mem_nodes_add_edge.mpr (Or.inr (Or.inl rfl))
  have hv : v ∈ (add_edge g u v).nodes := mem_nodes_add_edge.mpr (Or.inr (Or.inr rfl))
  have hku : u ∈ dictKeys (add_edge g u v).edges := by
    show u ∈ dictKeys (dictAddEdge (add_node (add_node g u) v).edges u v)
    rw [dictKeys_dictAddEdge]
    exact mem_keys_add_node.mpr (Or.inl (mem_keys_add_node.mpr (Or.inr rfl)))
  have hkv : v ∈ dictKeys (add_edge g u v).edges := by
    show v ∈ dictKeys (dictAddEdge (add_node (add_node g u) v).edges u v)
    rw [dictKeys_dictAddEdge]
    exact mem_keys_add_node.mpr (Or.inr rfl)
  have hE : dictAddEdge (add_edge g u v).edges u v = (add_edge g u v).edges := by
    show dictAddEdge (dictAddEdge (add_node (add_node g u) v).edges u v) u v
      = dictAddEdge (add_node (add_node g u) v).edges u v
    exact dictAddEdge_idem _ u v
  calc add_edge (add_edge g u v) u v
      = { nodes := (add_node (add_node (add_edge g u v) u) v).nodes,
          edges := dictAddEdge (add_node (add_node (add_edge g u v) u) v).edges u v } := rfl
    _ = { nodes := (add_edge g u v).nodes,
          edges := dictAddEdge (add_edge g u v).edges u v } := by
          rw [add_node_eq_self hu hku, add_node_eq_self hv hkv]
    _ = add_edge g u v := by rw [hE]

/-! ### Well-formedness is an invariant of the mutation surface -/

theorem WF.keys_iff_nodes {g : Digraph α} (h : WF g) (k : α) :
    k ∈ dictKeys g.edges ↔ k ∈ g.nodes := by
  constructor
  · intro hk
    obtain ⟨p, hp, rfl⟩ := List.mem_map.mp hk
    exact h.keysSub p hp
  · exact h.keysFull k

theorem wf_empty : WF (emptyGraph : Digraph α) := by
  constructor <;> simp [emptyGraph, dictKeys]

theorem wf_add_node {g : Digraph α} (h : WF g) (n : α) : WF (add_node g n) := by
  by_cases hn : n ∈ g.nodes
  · rw [add_node_eq_self hn ((h.keys_iff_nodes n).mpr hn)]
    exact h
  · have hk : ¬ (dictGet g.edges n).isSome := fun hs =>
      hn ((h.keys_iff_nodes n).mp (dictGet_isSome_iff.mp hs))
    have heq : add_node g n = { nodes := g.nodes ++ [n], edges := g.edges ++ [(n, [])] } := by
      unfold add_node
      rw [if_neg hn, if_neg (by simpa using hk)]
    rw [heq]
    have hkeys : n ∉ dictKeys g.edges := fun hmem => hn ((h.keys_iff_nodes n).mp hmem)
    constructor
    · simpa [List.nodup_append] using ⟨h.nodesNodup, hn⟩
    · show ((g.edges ++ [(n, [])]).map Prod.fst).Nodup
      rw [List.map_append]
      simp only [List.map_cons, List.map_nil]
      rw [List.nodup_append]
      refine ⟨h.keysNodup, by simp, ?_⟩
      intro a ha hb
      simp at hb
      subst hb
      exact hkeys ha
    · intro p hp
      rcases List.mem_append.mp hp with hp | hp
      · exact List.mem_append.mpr (Or.inl (h.keysSub p hp))
      · simp at hp
        simp [hp]
    · intro m hm
      rcases List.mem_append.mp hm with hm | hm
      · rw [List.map_append]
        exact List.mem_append.mpr (Or.inl (h.keysFull m hm))
      · simp at hm
        simp [hm, dictKeys]
    · intro p hp
      rcases List.mem_append.mp hp with hp | hp
      · obtain ⟨h1, h2⟩ := h.adjOk p hp
        exact ⟨h1, fun x hx => List.mem_append.mpr (Or.inl (h2 x hx))⟩
      · simp at hp
        simp [hp]

theorem wf_add_edge {g : Digraph α} (h : WF g) (u v : α) : WF (add_edge g u v) := by
  have h2 : WF (add_node (add_node g u) v) := wf_add_node (wf_add_node h u) v
  have hvmem : v ∈ (add_node (add_node g u) v).nodes := mem_nodes_add_node.mpr (Or.inr rfl)
  constructor
  · exact h2.nodesNodup
  · show (dictKeys (dictAddEdge (add_node (add_node g u) v).edges u v)).Nodup
    rw [dictKeys_dictAddEdge]
    exact h2.keysNodup
  · intro p hp
    obtain ⟨q, hq, h1, _⟩ := mem_dictAddEdge hp
    rw [show (add_edge g u v).nodes = (add_node (add_node g u) v).nodes from rfl]
    rw [h1]
    exact h2.keysSub q hq
  · intro m hm
    show m ∈ dictKeys (dictAddEdge (add_node (add_node g u) v).edges u v)
    rw [dictKeys_dictAddEdge]
    exact h2.keysFull m hm
  · intro p hp
    obtain ⟨q, hq, _, h3⟩ := mem_dictAddEdge hp
    obtain ⟨hq1, hq2⟩ := h2.adjOk q hq
    rw [show (add_edge g u v).nodes = (add_node (add_node g u) v).nodes from rfl]
    rcases h3 with h3 | h3
    · rw [h3]
      exact ⟨hq1, hq2⟩
    · rw [h3]
      refine ⟨setAdd_nodup hq1, fun x hx => ?_⟩
      rcases mem_setAdd.mp hx with hx | rfl
      · exact hq2 x hx
      · exact hvmem

theorem wf_applyOp {g : Digraph α} (h : WF g) (op : Op α) : WF (applyOp g op) := by
  cases op with
  | node n => exact wf_add_node h n
  | edge u v => exact wf_add_edge h u v

theorem wf_foldl {g : Digraph α} (h : WF g) (ops : List (Op α)) :
    WF (ops.foldl applyOp g) := by
  induction ops generalizing g with
  | nil => exact h
  | cons op rest ih => exact ih (wf_applyOp h op)

theorem wf_runOps (ops : List (Op α)) : WF (runOps ops) :=
  wf_foldl wf_empty ops

/-- **C9.** Structural closure invariant: any graph built from a fresh store
by a sequence of `add_node` / `add_edge` calls has its adjacency key set equal
to its node set, and every stored successor is itself a node.  (Hence the
in-degree table of `top_sort`, keyed by the node set, has an entry for every
neighbor the scan encounters.) -/
theorem c9_closure_invariant (ops : List (Op α)) :
    (∀ k, k ∈ dictKeys (runOps ops).edges ↔ k ∈ (runOps ops).nodes) ∧
    (∀ p ∈ (runOps ops).edges, ∀ x ∈ p.2, x ∈ (runOps ops).nodes) := by
  have h := wf_runOps ops
  exact ⟨h.keys_iff_nodes, fun p hp => (h.adjOk p hp).2⟩

/-- **C7.** The neighbors query on an identifier that is not a node of a
well-formed graph returns the empty collection (and, the query being total,
no error is raised): the key is absent from the adjacency dict, and
`dict.get` supplies the empty-set default. -/
theorem c7_get_neighbors_unknown_empty {g : Digraph α} (h : WF g) {n : α}
    (hn : n ∉ g.nodes) : get_neighbors g n = [] := by
  have hnone : dictGet g.edges n = none :=
    dictGet_eq_none_iff.mpr (fun hk => hn ((h.keys_iff_nodes n).mp hk))
  simp [get_neighbors, hnone]

/-- Witness for C7 at a concrete store: `5` is not a node of the graph built
by inserting the edge `0 -> 1`, and its neighbors query returns the empty
collection. -/
theorem c7_witness : get_neighbors (runOps [Op.edge 0 1]) 5 = [] :=
  c7_get_neighbors_unknown_empty (by decide) (by decide)

/-! ### List helpers for the Kahn development -/

/-- Position of an element in a list (length of the list if absent). -/
def idxIn : List α → α → Nat
  | [], _ => 0
  | a :: t, x => if x = a then 0 else idxIn t x + 1

theorem nodup_eq_singleton_of_all_eq {l : List α} {c : α} (hn : l.Nodup) (hc : c ∈ l)
    (hall : ∀ x ∈ l, x = c) : l = [c] := by
  cases l with
  | nil => simp at hc
  | cons x t =>
    have hx : x = c := hall x (by simp)
    subst hx
    cases t with
    | nil => rfl
    | cons y t' =>
      have hy : y = x := hall y (by simp)
      subst hy
      simp at hn

theorem pair_sublist_of_mem {l : List α} {u v : α} (hu : u ∈ l) (hv : v ∈ l)
    (hne : u ≠ v) : [u, v].Sublist l ∨ [v, u].Sublist l := by
  induction l with
  | nil => simp at hu
  | cons a t ih =>
    rcases List.mem_cons.mp hu with rfl | hu'
    · have hv' : v ∈ t := by
        rcases List.mem_cons.mp hv with rfl | h
        · exact absurd rfl hne
        · exact h
      exact Or.inl (List.Sublist.cons₂ u (List.singleton_sublist.mpr hv'))
    · rcases List.mem_cons.mp hv with rfl | hv'
      · exact Or.inr (List.Sublist.cons₂ v (List.singleton_sublist.mpr hu'))
      · rcases ih hu' hv' with h | h
        · exact Or.inl (h.cons a)
        · exact Or.inr (h.cons a)

theorem idxIn_lt_of_pair_sublist {l : List α} {u v : α} (hn : l.Nodup)
    (hs : [u, v].Sublist l) : idxIn l u < idxIn l v := by
  induction l with
  | nil => simp at hs
  | cons a t ih =>
    cases hs with
    | cons _ hs' =>
      have hu : u ∈ t := hs'.subset (by simp)
      have hv : v ∈ t := hs'.subset (by simp)
      have ha : a ∉ t := (List.nodup_cons.mp hn).1
      have hau : u ≠ a := fun h => ha (h ▸ hu)
      have hav : v ≠ a := fun h => ha (h ▸ hv)
      simp only [idxIn, if_neg hau, if_neg hav]
      exact Nat.succ_lt_succ (ih (List.nodup_cons.mp hn).2 hs')
    | cons₂ _ hs' =>
      have hv : v ∈ t := hs'.subset (by simp)
      have ha : u ∉ t := (List.nodup_cons.mp hn).1
      have hvu : v ≠ u := fun h => ha (h ▸ hv)
      simp [idxIn, hvu]

/-! ### Characterisation of the in-degree table -/

theorem mem_predsList {g : Digraph α} {n u : α} :
    u ∈ predsList g n ↔ u ∈ g.nodes ∧ n ∈ get_neighbors g u := by
  simp [predsList]

theorem WF.predsList_nodup {g : Digraph α} (h : WF g) (n : α) :
    (predsList g n).Nodup :=
  h.nodesNodup.filter _

theorem WF.get_neighbors_nodup {g : Digraph α} (h : WF g) (u : α) :
    (get_neighbors g u).Nodup := by
  unfold get_neighbors
  cases hd : dictGet g.edges u with
  | none => simp
  | some l => simpa using (h.adjOk _ (dictGet_mem hd)).1

theorem WF.target_mem_nodes {g : Digraph α} (h : WF g) {u v : α}
    (hv : v ∈ get_neighbors g u) : v ∈ g.nodes := by
  unfold get_neighbors at hv
  cases hd : dictGet g.edges u with
  | none => rw [hd] at hv; simp at hv
  | some l =>
    rw [hd] at hv
    exact (h.adjOk _ (dictGet_mem hd)).2 v hv

theorem WF.source_mem_nodes {g : Digraph α} (h : WF g) {u v : α}
    (hv : v ∈ get_neighbors g u) : u ∈ g.nodes := by
  unfold get_neighbors at hv
  cases hd : dictGet g.edges u with
  | none => rw [hd] at hv; simp at hv
  | some l => exact h.keysSub _ (dictGet_mem hd)

theorem bumpMany_apply (vs : List α) (f : α → Int) (n : α) :
    bumpMany f vs n = f n + vs.count n := by
  induction vs generalizing f with
  | nil => simp [bumpMany]
  | cons v tl ih =>
    show bumpMany (Function.update f v (f v + 1)) tl n = _
    rw [ih]
    by_cases hn : n = v
    · subst hn
      rw [Function.update_same, List.count_cons_self]
      push_cast
      ring
    · rw [Function.update_noteq hn, List.count_cons_of_ne hn]

theorem foldl_bumpMany_apply (l : List α) (adj : α → List α) (f : α → Int) (n : α) :
    (l.foldl (fun f u => bumpMany f (adj u)) f) n
      = f n + ((l.map (fun u => ((adj u).count n : Int))).sum) := by
  induction l generalizing f with
  | nil => simp
  | cons u tl ih =>
    show (tl.foldl _ (bumpMany f (adj u))) n = _
    rw [ih, bumpMany_apply]
    simp only [List.map_cons, List.sum_cons]
    ring

theorem sum_count_eq_filter_length (adj : α → List α) (hnd : ∀ u, (adj u).Nodup)
    (l : List α) (n : α) :
    ((l.map (fun u => ((adj u).count n : Int))).sum)
      = ((l.filter (fun u => decide (n ∈ adj u))).length : Int) := by
  induction l with
  | nil => simp
  | cons u tl ih =>
    simp only [List.map_cons, List.sum_cons, List.filter_cons]
    by_cases hm : n ∈ adj u
    · rw [List.count_eq_one_of_mem (hnd u) hm]
      simp only [hm, decide_True, if_true, List.length_cons]
      rw [ih]
      push_cast
      ring
    · rw [List.count_eq_zero_of_not_mem hm]
      simp only [hm, decide_False, if_false]
      rw [ih]
      push_cast
      ring

theorem inDegreeFun_char {g : Digraph α} (h : WF g) (n : α) :
    inDegreeFun g n = ((predsList g n).length : Int) := by
  unfold inDegreeFun predsList
  rw [foldl_bumpMany_apply,
    sum_count_eq_filter_length (get_neighbors g) h.get_neighbors_nodup]
  simp

/-! ### The neighbor pass of the Kahn loop -/

theorem processNeighbors_fst {indeg : α → Int} {ns : List α} (q : List α)
    (hnd : ns.Nodup) (w : α) :
    (processNeighbors indeg ns q).1 w = if w ∈ ns then indeg w - 1 else indeg w := by
  induction ns generalizing indeg q with
  | nil => simp [processNeighbors]
  | cons v tl ih =>
    have hv : v ∉ tl := (List.nodup_cons.mp hnd).1
    have htl : tl.Nodup := (List.nodup_cons.mp hnd).2
    show (processNeighbors (Function.update indeg v (indeg v - 1)) tl
        (if indeg v - 1 = 0 then q ++ [v] else q)).1 w = _
    rw [ih _ htl]
    by_cases hw : w ∈ tl
    · have hwv : w ≠ v := fun h => hv (h ▸ hw)
      rw [if_pos hw, if_pos (List.mem_cons.mpr (Or.inr hw)), Function.update_noteq hwv]
    · by_cases hwv : w = v
      · subst hwv
        rw [if_neg hw, if_pos (List.mem_cons.mpr (Or.inl rfl)), Function.update_same]
      · rw [if_neg hw, if_neg (by simp [hwv, hw]), Function.update_noteq hwv]

theorem processNeighbors_snd {indeg : α → Int} {ns : List α} (q : List α)
    (hnd : ns.Nodup) :
    (processNeighbors indeg ns q).2
      = q ++ ns.filter (fun v => decide (indeg v - 1 = 0)) := by
  induction ns generalizing indeg q with
  | nil => simp [processNeighbors]
  | cons v tl ih =>
    have hv : v ∉ tl := (List.nodup_cons.mp hnd).1
    have htl : tl.Nodup := (List.nodup_cons.mp hnd).2
    show (processNeighbors (Function.update indeg v (indeg v - 1)) tl
        (if indeg v - 1 = 0 then q ++ [v] else q)).2 = _
    rw [ih _ htl]
    have hcongr : tl.filter (fun w => decide (Function.update indeg v (indeg v - 1) w - 1 = 0))
        = tl.filter (fun w => decide (indeg w - 1 = 0)) := by
      apply List.filter_congr
      intro w hw
      have hwv : w ≠ v := fun h => hv (h ▸ hw)
      rw [Function.update_noteq hwv]
    rw [hcongr, List.filter_cons]
    by_cases hd : indeg v - 1 = 0
    · simp [hd]
    · simp [hd]

/-! ### The loop invariant of Kahn's algorithm -/

/-- State invariant of the `while queue` loop of `top_sort`: `out` is the
result accumulated so far, `queue` the pending nodes, `indeg` the current
in-degree table.  Processed-plus-pending nodes are distinct stored nodes; a
stored node is processed-or-pending exactly when all its predecessors are
processed; the in-degree of a stored node counts its unprocessed
predecessors; no discovered node carries a self-loop; and no processed node
has an edge to an earlier processed node. -/
structure KahnInv (g : Digraph α) (indeg : α → Int) (queue out : List α) : Prop where
  nodup : (out ++ queue).Nodup
  subV : ∀ n ∈ out ++ queue, n ∈ g.nodes
  disc : ∀ n ∈ g.nodes, (n ∈ out ++ queue ↔ ∀ u ∈ predsList g n, u ∈ out)
  deg : ∀ n ∈ g.nodes,
    indeg n = (((predsList g n).filter (fun u => decide (u ∉ out))).length : Int)
  noSelf : ∀ n ∈ out ++ queue, n ∉ get_neighbors g n
  pair : out.Pairwise (fun x y => x ∉ get_neighbors g y)

theorem length_filter_ne_of_mem {l : List α} {c : α} (hn : l.Nodup) (hc : c ∈ l) :
    (l.filter (fun x => decide (x ≠ c))).length + 1 = l.length := by
  induction l with
  | nil => simp at hc
  | cons a t ih =>
    by_cases hac : a = c
    · subst hac
      have hat : a ∉ t := (List.nodup_cons.mp hn).1
      have hft : t.filter (fun x => decide (x ≠ a)) = t := by
        apply List.filter_eq_self.mpr
        intro x hx
        simp only [decide_eq_true_eq]
        exact fun he => hat (he ▸ hx)
      have hhead : (a :: t).filter (fun x => decide (x ≠ a))
          = t.filter (fun x => decide (x ≠ a)) := by
        rw [List.filter_cons, if_neg (by simp)]
      rw [hhead, hft, List.length_cons]
    · have hct : c ∈ t := by
        rcases List.mem_cons.mp hc with h1 | h1
        · exact absurd h1.symm hac
        · exact h1
      have hstep : (a :: t).filter (fun x => decide (x ≠ c))
          = a :: t.filter (fun x => decide (x ≠ c)) := by
        rw [List.filter_cons, if_pos (by simp [hac])]
      rw [hstep, List.length_cons, List.length_cons,
        Nat.succ_add, ih (List.nodup_cons.mp hn).2 hct]

theorem kahnInv_step {g : Digraph α} (hWF : WF g) {indeg : α → Int} {current : α}
    {rest out : List α} (h : KahnInv g indeg (current :: rest) out) :
    KahnInv g (processNeighbors indeg (get_neighbors g current) rest).1
      (processNeighbors indeg (get_neighbors g current) rest).2 (out ++ [current]) := by
  have hcV : current ∈ g.nodes := h.subV current (by simp)
  have hnsNd : (get_neighbors g current).Nodup := hWF.get_neighbors_nodup current
  have hcOut : current ∉ out := by
    intro hc
    have hnd := h.nodup
    rw [List.nodup_append] at hnd
    exact hnd.2.2 hc (by simp)
  have hfst := @processNeighbors_fst α _ indeg (get_neighbors g current) rest hnsNd
  have hsnd := @processNeighbors_snd α _ indeg (get_neighbors g current) rest hnsNd
  have hmemPreds : ∀ n, current ∈ predsList g n ↔ n ∈ get_neighbors g current := by
    intro n
    rw [mem_predsList]
    exact ⟨fun hp => hp.2, fun hn => ⟨hcV, hn⟩⟩
  have hEfresh : ∀ v ∈ (get_neighbors g current).filter (fun v => decide (indeg v - 1 = 0)),
      v ∉ out ++ current :: rest := by
    intro v hvE hvold
    obtain ⟨hvns, _⟩ := List.mem_filter.mp hvE
    have hvV : v ∈ g.nodes := hWF.target_mem_nodes hvns
    have hdisc := (h.disc v hvV).mp hvold
    exact hcOut (hdisc current ((hmemPreds v).mpr hvns))
  have hEchar : ∀ v ∈ (get_neighbors g current).filter (fun v => decide (indeg v - 1 = 0)),
      (predsList g v).filter (fun u => decide (u ∉ out)) = [current] := by
    intro v hvE
    obtain ⟨hvns, hvd⟩ := List.mem_filter.mp hvE
    have hvV : v ∈ g.nodes := hWF.target_mem_nodes hvns
    have hvd' : indeg v - 1 = 0 := by simpa using hvd
    have hdeg := h.deg v hvV
    have hlen : ((predsList g v).filter (fun u => decide (u ∉ out))).length = 1 := by omega
    obtain ⟨c, hc⟩ := List.length_eq_one.mp hlen
    have hcur_mem : current ∈ (predsList g v).filter (fun u => decide (u ∉ out)) := by
      rw [List.mem_filter]
      exact ⟨(hmemPreds v).mpr hvns, by simpa using hcOut⟩
    rw [hc] at hcur_mem ⊢
    simp only [List.mem_singleton] at hcur_mem
    rw [← hcur_mem]
  have hmemNew : ∀ n, n ∈ (out ++ [current]) ++ (rest ++
      (get_neighbors g current).filter (fun v => decide (indeg v - 1 = 0)))
      ↔ (n ∈ out ++ current :: rest
        ∨ n ∈ (get_neighbors g current).filter (fun v => decide (indeg v - 1 = 0))) := by
    intro n
    simp only [List.mem_append, List.mem_cons, List.mem_singleton]
    tauto
  rw [show (processNeighbors indeg (get_neighbors g current) rest)
      = ((processNeighbors indeg (get_neighbors g current) rest).1,
         (processNeighbors indeg (get_neighbors g current) rest).2) from rfl, hsnd]
  constructor
  case nodup =>
    have hassoc : (out ++ [current]) ++ (rest ++
        (get_neighbors g current).filter (fun v => decide (indeg v - 1 = 0)))
        = (out ++ current :: rest) ++
          (get_neighbors g current).filter (fun v => decide (indeg v - 1 = 0)) := by
      simp [List.append_assoc]
    rw [hassoc, List.nodup_append]
    exact ⟨h.nodup, hnsNd.filter _, fun a ha haE => hEfresh a haE ha⟩
  case subV =>
    intro n hn
    rcases (hmemNew n).mp hn with hold | hnE
    · exact h.subV n hold
    · exact hWF.target_mem_nodes (List.mem_filter.mp hnE).1
  case disc =>
    intro n hnV
    rw [hmemNew n]
    constructor
    · rintro (hold | hnE)
      · intro u hu
        exact List.mem_append.mpr (Or.inl ((h.disc n hnV).mp hold u hu))
      · intro u hu
        by_cases huo : u ∈ out
        · exact List.mem_append.mpr (Or.inl huo)
        · have hufilt : u ∈ (predsList g n).filter (fun u => decide (u ∉ out)) := by
            rw [List.mem_filter]
            exact ⟨hu, by simpa using huo⟩
          rw [hEchar n hnE] at hufilt
          simp only [List.mem_singleton] at hufilt
          subst hufilt
          exact List.mem_append.mpr (Or.inr (by simp))
    · intro hsub
      by_cases hall : ∀ u ∈ predsList g n, u ∈ out
      · exact Or.inl ((h.disc n hnV).mpr hall)
      · push_neg at hall
        obtain ⟨u0, hu0p, hu0o⟩ := hall
        have hu0c : u0 = current := by
          rcases List.mem_append.mp (hsub u0 hu0p) with h1 | h1
          · exact absurd h1 hu0o
          · simpa using h1
        rw [hu0c] at hu0p
        have hnns : n ∈ get_neighbors g current := (hmemPreds n).mp hu0p
        have hfilt_all : ∀ x ∈ (predsList g n).filter (fun u => decide (u ∉ out)),
            x = current := by
          intro x hx
          obtain ⟨hx1, hx2⟩ := List.mem_filter.mp hx
          have hx2' : x ∉ out := by simpa using hx2
          rcases List.mem_append.mp (hsub x hx1) with h1 | h1
          · exact absurd h1 hx2'
          · simpa using h1
        have hcur_mem : current ∈ (predsList g n).filter (fun u => decide (u ∉ out)) := by
          rw [List.mem_filter]
          exact ⟨hu0p, by simpa using hcOut⟩
        have hnd : ((predsList g n).filter (fun u => decide (u ∉ out))).Nodup :=
          (hWF.predsList_nodup n).filter _
        have hsingle := nodup_eq_singleton_of_all_eq hnd hcur_mem hfilt_all
        have hlen1 : indeg n = 1 := by rw [h.deg n hnV, hsingle]; simp
        exact Or.inr (List.mem_filter.mpr ⟨hnns, by simp [hlen1]⟩)
  case deg =>
    intro n hnV
    rw [hfst n]
    have hsplit : (predsList g n).filter (fun u => decide (u ∉ out ++ [current]))
        = ((predsList g n).filter (fun u => decide (u ∉ out))).filter
            (fun u => decide (u ≠ current)) := by
      rw [List.filter_filter]
      apply List.filter_congr
      intro x _
      by_cases h1 : x ∈ out <;> by_cases h2 : x = current <;> simp [h1, h2]
    rw [hsplit]
    by_cases hn : n ∈ get_neighbors g current
    · have hcur_mem : current ∈ (predsList g n).filter (fun u => decide (u ∉ out)) := by
        rw [List.mem_filter]
        exact ⟨(hmemPreds n).mpr hn, by simpa using hcOut⟩
      have hnd : ((predsList g n).filter (fun u => decide (u ∉ out))).Nodup :=
        (hWF.predsList_nodup n).filter _
      have hlen := length_filter_ne_of_mem hnd hcur_mem
      have hdeg := h.deg n hnV
      rw [if_pos hn]
      omega
    · have hcur_nmem : current ∉ (predsList g n).filter (fun u => decide (u ∉ out)) := by
        rw [List.mem_filter]
        rintro ⟨hc1, _⟩
        exact hn ((hmemPreds n).mp hc1)
      have hfix : ((predsList g n).filter (fun u => decide (u ∉ out))).filter
          (fun u => decide (u ≠ current))
          = (predsList g n).filter (fun u => decide (u ∉ out)) := by
        apply List.filter_eq_self.mpr
        intro x hx
        simp only [decide_eq_true_eq]
        exact fun he => hcur_nmem (he ▸ hx)
      rw [if_neg hn, hfix]
      exact h.deg n hnV
  case noSelf =>
    intro n hn
    rcases (hmemNew n).mp hn with hold | hnE
    · exact h.noSelf n hold
    · intro hself
      have hnV : n ∈ g.nodes := hWF.target_mem_nodes (List.mem_filter.mp hnE).1
      have hnout : n ∉ out := fun ho => hEfresh n hnE (List.mem_append.mpr (Or.inl ho))
      have hmem : n ∈ (predsList g n).filter (fun u => decide (u ∉ out)) := by
        rw [List.mem_filter]
        exact ⟨mem_predsList.mpr ⟨hnV, hself⟩, by simpa using hnout⟩
      rw [hEchar n hnE] at hmem
      simp only [List.mem_singleton] at hmem
      exact hEfresh n hnE (hmem ▸ List.mem_append.mpr (Or.inr (by simp)))
  case pair =>
    rw [List.pairwise_append]
    refine ⟨h.pair, by simp, ?_⟩
    intro x hx c hc
    simp only [List.mem_singleton] at hc
    rw [hc]
    intro hxc
    have hxV : x ∈ g.nodes := h.subV x (List.mem_append.mpr (Or.inl hx))
    have hcp : current ∈ predsList g x := mem_predsList.mpr ⟨hcV, hxc⟩
    exact hcOut ((h.disc x hxV).mp (List.mem_append.mpr (Or.inl hx)) current hcp)

theorem kahnInv_init {g : Digraph α} (hWF : WF g) :
    KahnInv g (inDegreeFun g)
      (g.nodes.filter (fun n => decide (inDegreeFun g n = 0))) [] := by
  have hpreds_nil : ∀ n ∈ g.nodes, inDegreeFun g n = 0 → predsList g n = [] := by
    intro n _ h0
    rw [inDegreeFun_char hWF] at h0
    have hlen : (predsList g n).length = 0 := by exact_mod_cast h0
    exact List.length_eq_zero.mp hlen
  constructor
  case nodup => simpa using hWF.nodesNodup.filter _
  case subV =>
    intro n hn
    simp only [List.nil_append] at hn
    exact (List.mem_filter.mp hn).1
  case disc =>
    intro n hnV
    simp only [List.nil_append]
    constructor
    · intro hq u hu
      obtain ⟨_, hd⟩ := List.mem_filter.mp hq
      have hnil := hpreds_nil n hnV (by simpa using hd)
      rw [hnil] at hu
      simp at hu
    · intro hall
      apply List.mem_filter.mpr
      refine ⟨hnV, ?_⟩
      have hnil : predsList g n = [] := by
        rw [List.eq_nil_iff_forall_not_mem]
        intro u hu
        simpa using hall u hu
      simp [inDegreeFun_char hWF, hnil]
  case deg =>
    intro n hnV
    have hfix : (predsList g n).filter (fun u => decide (u ∉ ([] : List α)))
        = predsList g n := by
      apply List.filter_eq_self.mpr
      intro x _
      simp
    rw [hfix, inDegreeFun_char hWF]
  case noSelf =>
    intro n hn
    simp only [List.nil_append] at hn
    obtain ⟨hnV, hd⟩ := List.mem_filter.mp hn
    have hnil := hpreds_nil n hnV (by simpa using hd)
    intro hself
    have hmem : n ∈ predsList g n := mem_predsList.mpr ⟨hnV, hself⟩
    rw [hnil] at hmem
    simp at hmem
  case pair => exact List.Pairwise.nil

/-- What holds of the list returned by `top_sort` on a well-formed graph:
its elements are distinct stored nodes, membership is the least fixed point of
"all predecessors are members", no member has a self-loop, and no member has
an edge back to an earlier member. -/
structure KahnPost (g : Digraph α) (l : List α) : Prop where
  nodup : l.Nodup
  subV : ∀ n ∈ l, n ∈ g.nodes
  closed : ∀ n ∈ g.nodes, (n ∈ l ↔ ∀ u ∈ predsList g n, u ∈ l)
  noSelf : ∀ n ∈ l, n ∉ get_neighbors g n
  pair : l.Pairwise (fun x y => x ∉ get_neighbors g y)

theorem kahnLoop_post {g : Digraph α} (hWF : WF g) :
    ∀ (fuel : Nat) (indeg : α → Int) (queue out : List α),
      KahnInv g indeg queue out → g.nodes.length + 1 ≤ fuel + out.length →
      KahnPost g (kahnLoop g fuel indeg queue out) := by
  intro fuel
  induction fuel with
  | zero =>
    intro indeg queue out hInv hfuel
    exfalso
    have hle : (out ++ queue).length ≤ g.nodes.length :=
      List.Subperm.length_le (hInv.nodup.subperm (fun a ha => hInv.subV a ha))
    rw [List.length_append] at hle
    omega
  | succ fuel ih =>
    intro indeg queue out hInv hfuel
    cases queue with
    | nil =>
      show KahnPost g out
      refine ⟨?_, ?_, ?_, ?_, hInv.pair⟩
      · simpa using hInv.nodup
      · intro n hn
        exact hInv.subV n (by simpa using hn)
      · intro n hnV
        simpa using hInv.disc n hnV
      · intro n hn
        exact hInv.noSelf n (by simpa using hn)
    | cons current rest =>
      show KahnPost g (kahnLoop g fuel
        (processNeighbors indeg (get_neighbors g current) rest).1
        (processNeighbors indeg (get_neighbors g current) rest).2 (out ++ [current]))
      apply ih _ _ _ (kahnInv_step hWF hInv)
      rw [List.length_append]
      simp only [List.length_singleton]
      omega

theorem top_sort_post {g : Digraph α} (hWF : WF g) : KahnPost g (top_sort g) := by
  apply kahnLoop_post hWF _ _ _ _ (kahnInv_init hWF)
  simp

/-! ### From the loop post-condition to cycles and reachability -/

theorem idxIn_lt_length {l : List α} {x : α} (hx : x ∈ l) : idxIn l x < l.length := by
  induction l with
  | nil => simp at hx
  | cons a t ih =>
    by_cases hxa : x = a
    · simp [idxIn, hxa]
    · rcases List.mem_cons.mp hx with h | h
      · exact absurd h hxa
      · simpa [idxIn, hxa] using Nat.succ_lt_succ (ih h)

theorem idxIn_inj {l : List α} {x y : α} (hx : x ∈ l) (hy : y ∈ l)
    (h : idxIn l x = idxIn l y) : x = y := by
  induction l with
  | nil => simp at hx
  | cons a t ih =>
    by_cases hxa : x = a <;> by_cases hya : y = a
    · rw [hxa, hya]
    · simp [idxIn, hxa, hya] at h
    · simp [idxIn, hxa, hya] at h
    · have hx' : x ∈ t := by
        rcases List.mem_cons.mp hx with h1 | h1
        · exact absurd h1 hxa
        · exact h1
      have hy' : y ∈ t := by
        rcases List.mem_cons.mp hy with h1 | h1
        · exact absurd h1 hya
        · exact h1
      simp only [idxIn, if_neg hxa, if_neg hya, Nat.add_right_cancel_iff] at h
      exact ih hx' hy' h

/-- Iterate a function from a seed: the backwards predecessor chains used in
the analysis of omitted nodes. -/
def chainIter {β : Type} (x0 : β) (f : β → β) : Nat → β
  | 0 => x0
  | k + 1 => f (chainIter x0 f k)

theorem KahnPost.edge_back {g : Digraph α} {l : List α} (hWF : WF g)
    (hP : KahnPost g l) {u v : α} (he : v ∈ get_neighbors g u) (hv : v ∈ l) :
    u ∈ l := by
  have hvV : v ∈ g.nodes := hWF.target_mem_nodes he
  have huV : u ∈ g.nodes := hWF.source_mem_nodes he
  exact (hP.closed v hvV).mp hv u (mem_predsList.mpr ⟨huV, he⟩)

theorem KahnPost.edge_sublist {g : Digraph α} {l : List α} (hP : KahnPost g l)
    {u v : α} (he : v ∈ get_neighbors g u) (hu : u ∈ l) (hv : v ∈ l) :
    [u, v].Sublist l := by
  have hne : u ≠ v := by
    intro hcontra
    rw [← hcontra] at he
    exact hP.noSelf u hu he
  rcases pair_sublist_of_mem hu hv hne with hs | hs
  · exact hs
  · exact absurd he (List.pairwise_iff_forall_sublist.mp hP.pair hs)

theorem KahnPost.idx_mono {g : Digraph α} {l : List α} (hWF : WF g)
    (hP : KahnPost g l) {u v : α} (hTG : Relation.TransGen (step g) u v)
    (hv : v ∈ l) : u ∈ l ∧ idxIn l u < idxIn l v := by
  revert hv
  induction hTG with
  | single hstep =>
    intro hv
    have hu := hP.edge_back hWF hstep hv
    exact ⟨hu, idxIn_lt_of_pair_sublist hP.nodup (hP.edge_sublist hstep hu hv)⟩
  | tail _ hstep ih =>
    intro hv
    have hb := hP.edge_back hWF hstep hv
    obtain ⟨hu, hlt⟩ := ih hb
    exact ⟨hu, lt_trans hlt
      (idxIn_lt_of_pair_sublist hP.nodup (hP.edge_sublist hstep hb hv))⟩

theorem KahnPost.cycle_not_mem {g : Digraph α} {l : List α} (hWF : WF g)
    (hP : KahnPost g l) {c : α} (hc : Relation.TransGen (step g) c c) :
    c ∉ l := fun hmem => absurd (hP.idx_mono hWF hc hmem).2 (lt_irrefl _)

theorem KahnPost.reach_back {g : Digraph α} {l : List α} (hWF : WF g)
    (hP : KahnPost g l) {c n : α} (hr : Relation.ReflTransGen (step g) c n)
    (hn : n ∈ l) : c ∈ l := by
  revert hn
  induction hr with
  | refl => exact id
  | tail _ hstep ih => exact fun hn => ih (hP.edge_back hWF hstep hn)

theorem exists_cycle_ancestor {g : Digraph α} (hWF : WF g) {l : List α}
    (hP : KahnPost g l) {n : α} (hnV : n ∈ g.nodes) (hnl : n ∉ l) :
    ∃ c, Relation.TransGen (step g) c c ∧ Relation.ReflTransGen (step g) c n := by
  have hstep1 : ∀ x : α, x ∈ g.nodes → x ∉ l →
      ∃ u, (u ∈ g.nodes ∧ u ∉ l) ∧ step g u x := by
    intro x hxV hxl
    have hnot : ¬ ∀ u ∈ predsList g x, u ∈ l :=
      fun hall => hxl ((hP.closed x hxV).mpr hall)
    push_neg at hnot
    obtain ⟨u, hup, hul⟩ := hnot
    obtain ⟨huV, hue⟩ := mem_predsList.mp hup
    exact ⟨u, ⟨huV, hul⟩, hue⟩
  have hnext : ∀ x : {x : α // x ∈ g.nodes ∧ x ∉ l},
      ∃ y : {x : α // x ∈ g.nodes ∧ x ∉ l}, step g y.val x.val := by
    rintro ⟨x, hx1, hx2⟩
    obtain ⟨u, hu, hue⟩ := hstep1 x hx1 hx2
    exact ⟨⟨u, hu⟩, hue⟩
  choose nxt hnxt using hnext
  let x0 : {x : α // x ∈ g.nodes ∧ x ∉ l} := ⟨n, hnV, hnl⟩
  have hFs : ∀ k, step g (chainIter x0 nxt (k + 1)).val
      (chainIter x0 nxt k).val := fun k => hnxt _
  have hchain : ∀ d k, Relation.TransGen (step g)
      (chainIter x0 nxt (k + d + 1)).val
      (chainIter x0 nxt k).val := by
    intro d
    induction d with
    | zero => exact fun k => Relation.TransGen.single (hFs k)
    | succ d ihd => exact fun k => Relation.TransGen.head (hFs (k + d + 1)) (ihd k)
  have hrchain : ∀ k, Relation.ReflTransGen (step g)
      (chainIter x0 nxt k).val n := by
    intro k
    induction k with
    | zero => exact Relation.ReflTransGen.refl
    | succ k ihk => exact Relation.ReflTransGen.head (hFs k) ihk
  have hmain : ∀ a b : Nat, a < b →
      (chainIter x0 nxt a).val = (chainIter x0 nxt b).val →
      ∃ c, Relation.TransGen (step g) c c ∧ Relation.ReflTransGen (step g) c n := by
    intro a b hab he
    obtain ⟨d, rfl⟩ : ∃ d, b = a + d + 1 := ⟨b - a - 1, by omega⟩
    refine ⟨(chainIter x0 nxt (a + d + 1)).val, ?_, hrchain _⟩
    have hcyc := hchain d a
    rw [he] at hcyc
    exact hcyc
  obtain ⟨i, j, hij, hfe⟩ := Fintype.exists_ne_map_eq_of_card_lt
    (fun i : Fin (g.nodes.length + 1) =>
      (⟨idxIn g.nodes (chainIter x0 nxt i.val).val,
        idxIn_lt_length (chainIter x0 nxt i.val).2.1⟩ : Fin g.nodes.length))
    (by simp)
  have heq : (chainIter x0 nxt i.val).val
      = (chainIter x0 nxt j.val).val :=
    idxIn_inj (chainIter x0 nxt i.val).2.1
      (chainIter x0 nxt j.val).2.1 (by simpa using congrArg Fin.val hfe)
  rcases Nat.lt_or_ge i.val j.val with hlt | hge
  · exact hmain i.val j.val hlt heq
  · have hlt : j.val < i.val := by
      rcases Nat.lt_or_ge j.val i.val with h1 | h1
      · exact h1
      · exact absurd (Fin.ext (Nat.le_antisymm h1 hge)) hij
    exact hmain j.val i.val hlt heq.symm

theorem omitted_iff {g : Digraph α} (hWF : WF g) {n : α} (hnV : n ∈ g.nodes) :
    n ∉ top_sort g ↔ ∃ c, Relation.TransGen (step g) c c
      ∧ Relation.ReflTransGen (step g) c n := by
  have hP := top_sort_post hWF
  constructor
  · exact exists_cycle_ancestor hWF hP hnV
  · rintro ⟨c, hcc, hcn⟩ hmem
    exact hP.cycle_not_mem hWF hcc (hP.reach_back hWF hcn hmem)

theorem top_sort_perm_of_acyclic {g : Digraph α} (hWF : WF g) (hA : Acyclic g) :
    (top_sort g).Perm g.nodes := by
  have hP := top_sort_post hWF
  rw [List.perm_ext_iff_of_nodup hP.nodup hWF.nodesNodup]
  intro a
  constructor
  · exact fun ha => hP.subV a ha
  · intro haV
    by_contra hnotin
    obtain ⟨c, hcc, _⟩ := exists_cycle_ancestor hWF hP haV hnotin
    exact hA c hcc

/-- A graph admitting a rank function that strictly increases along every
stored edge has no directed cycle. -/
theorem acyclic_of_ranked {g : Digraph α} (hWF : WF g) (r : α → Nat)
    (hr : ∀ u ∈ g.nodes, ∀ v ∈ get_neighbors g u, r u < r v) : Acyclic g := by
  intro n hTG
  have hmono : ∀ a b : α, Relation.TransGen (step g) a b → r a < r b := by
    intro a b hab
    induction hab with
    | single h1 => exact hr _ (hWF.source_mem_nodes h1) _ h1
    | tail _ h2 ih => exact lt_trans ih (hr _ (hWF.source_mem_nodes h2) _ h2)
  exact absurd (hmono n n hTG) (lt_irrefl _)

/-! ### Claim C2: correctness of `top_sort` on acyclic graphs -/

/-- **C2.** On every well-formed acyclic graph, `top_sort()` returns a list
containing every node of the graph exactly once (a permutation of the
duplicate-free node set), and for every stored edge `u -> v`, `u` appears
before `v` in that list. -/
theorem c2_top_sort_correct_on_acyclic {g : Digraph α} (hWF : WF g)
    (hA : Acyclic g) :
    (top_sort g).Perm g.nodes ∧
    ∀ u v, v ∈ get_neighbors g u → [u, v].Sublist (top_sort g) := by
  have hP := top_sort_post hWF
  have hperm := top_sort_perm_of_acyclic hWF hA
  refine ⟨hperm, ?_⟩
  intro u v he
  have hu : u ∈ top_sort g := hperm.mem_iff.mpr (hWF.source_mem_nodes he)
  have hv : v ∈ top_sort g := hperm.mem_iff.mpr (hWF.target_mem_nodes he)
  exact hP.edge_sublist he hu hv

/-- Witness for C2 on the chain `0 -> 1 -> 2`: the sort is a permutation of
the node set and places `0` before `1`. -/
theorem c2_witness :
    (top_sort (runOps [Op.edge 0 1, Op.edge 1 2])).Perm
      (runOps [Op.edge 0 1, Op.edge 1 2]).nodes ∧
    [0, 1].Sublist (top_sort (runOps [Op.edge 0 1, Op.edge 1 2])) := by
  have h := c2_top_sort_correct_on_acyclic
    (by decide : WF (runOps [Op.edge 0 1, Op.edge 1 2]))
    (acyclic_of_ranked (by decide) (fun n => n) (by decide))
  exact ⟨h.1, h.2 0 1 (by decide)⟩

/-! ### Claim C3: `top_sort` on arbitrary (possibly cyclic) graphs -/

/-- A node lying on a directed cycle of the stored graph. -/
def CycleNode (g : Digraph α) (n : α) : Prop :=
  Relation.TransGen (step g) n n

/-- An edge both of whose endpoints lie on no cycle: one step of
reachability that does not pass through any cycle. -/
def cleanStep (g : Digraph α) (u v : α) : Prop :=
  step g u v ∧ ¬ CycleNode g u ∧ ¬ CycleNode g v

/-- Formalisation of the claim's phrase "only reachable through a cycle":
`n` cannot be reached from any predecessor-free stored node by a path that
avoids all cycle nodes. -/
def OnlyViaCycle (g : Digraph α) (n : α) : Prop :=
  ¬ ∃ m, m ∈ g.nodes ∧ predsList g m = []
    ∧ Relation.ReflTransGen (cleanStep g) m n

/-- The omission characterisation asserted by the claim: every node omitted
from `top_sort()` is inside a cycle or only reachable through one. -/
def claimedOmissionChar (g : Digraph α) : Prop :=
  ∀ n ∈ g.nodes, n ∉ top_sort g → CycleNode g n ∨ OnlyViaCycle g n

/-- The graph `0 ⇄ 1 -> 2 <- 3`: node `2` hangs off both the cycle `0 ⇄ 1`
and the cycle-free source `3`. -/
def cycleDemo : Digraph Nat :=
  runOps [Op.edge 0 1, Op.edge 1 0, Op.edge 1 2, Op.edge 3 2]

/-- **C3, counterexample.** The claim says the nodes omitted from
`top_sort()` are exactly those inside a cycle or only reachable through one.
In `cycleDemo`, node `2` is omitted (`top_sort` returns `[3]`), yet `2` lies
on no cycle and is reached from the predecessor-free node `3` by the single
edge `3 -> 2`, a path that touches no cycle node — so `2` is neither inside a
cycle nor only reachable through one. -/
theorem c3_counterexample : ¬ claimedOmissionChar cycleDemo := by
  have hadj2 : get_neighbors cycleDemo 2 = [] := by decide
  have hadj3 : get_neighbors cycleDemo 3 = [2] := by decide
  have hnc2 : ¬ CycleNode cycleDemo 2 := by
    intro hc
    obtain ⟨c, hc1, _⟩ := Relation.TransGen.head'_iff.mp hc
    have hcm : c ∈ get_neighbors cycleDemo 2 := hc1
    rw [hadj2] at hcm
    simp at hcm
  have hnc3 : ¬ CycleNode cycleDemo 3 := by
    intro hc
    obtain ⟨c, hc1, hc2⟩ := Relation.TransGen.head'_iff.mp hc
    have hcm : c ∈ get_neighbors cycleDemo 3 := hc1
    rw [hadj3] at hcm
    simp at hcm
    subst hcm
    rcases Relation.ReflTransGen.cases_head hc2 with h1 | ⟨d, hd1, _⟩
    · simp at h1
    · have hdm : d ∈ get_neighbors cycleDemo 2 := hd1
      rw [hadj2] at hdm
      simp at hdm
  intro h
  rcases h 2 (by decide) (by decide) with hcy | honly
  · exact hnc2 hcy
  · exact honly ⟨3, by decide, by decide,
      Relation.ReflTransGen.single ⟨by decide, hnc3, hnc2⟩⟩

/-- **C3, amended.** For every well-formed graph, `len(top_sort())` equals
the number of nodes iff the graph is acyclic; when the graph has a directed
cycle the result is strictly shorter; and the omitted stored nodes are
exactly those reachable (in zero or more steps) from some node that lies on a
directed cycle.  The sort itself is total — no error is raised. -/
theorem c3_amended_top_sort_length_and_omissions {g : Digraph α} (hWF : WF g) :
    ((top_sort g).length = g.nodes.length ↔ Acyclic g) ∧
    (¬ Acyclic g → (top_sort g).length < g.nodes.length) ∧
    (∀ n ∈ g.nodes, (n ∉ top_sort g ↔ ∃ c, Relation.TransGen (step g) c c
      ∧ Relation.ReflTransGen (step g) c n)) := by
  have hP := top_sort_post hWF
  have hlt : ¬ Acyclic g → (top_sort g).length < g.nodes.length := by
    intro hnA
    unfold Acyclic at hnA
    push_neg at hnA
    obtain ⟨m, hm⟩ := hnA
    have hmV : m ∈ g.nodes := by
      cases hm with
      | single h1 => exact hWF.source_mem_nodes h1
      | tail _ h2 => exact hWF.target_mem_nodes h2
    have hmnot : m ∉ top_sort g := hP.cycle_not_mem hWF hm
    have hsub : ∀ x ∈ top_sort g, x ∈ g.nodes.erase m := by
      intro x hx
      have hxV : x ∈ g.nodes := hP.subV x hx
      have hxm : x ≠ m := fun he => hmnot (he ▸ hx)
      exact (hWF.nodesNodup.mem_erase_iff).mpr ⟨hxm, hxV⟩
    have hle : (top_sort g).length ≤ (g.nodes.erase m).length :=
      List.Subperm.length_le (hP.nodup.subperm hsub)
    have herase : (g.nodes.erase m).length = g.nodes.length - 1 :=
      List.length_erase_of_mem hmV
    have hpos : 0 < g.nodes.length := List.length_pos_of_mem hmV
    omega
  refine ⟨⟨?_, ?_⟩, hlt, fun n hnV => omitted_iff hWF hnV⟩
  · intro hlen
    by_contra hnA
    exact absurd hlen (Nat.ne_of_lt (hlt hnA))
  · intro hA
    exact (top_sort_perm_of_acyclic hWF hA).length_eq

/-- Witness for the amended C3 on `cycleDemo`, which contains the cycle
`0 ⇄ 1`: the sort is strictly shorter than the node count, the length
equality is equivalent to acyclicity, and the omission criterion holds for
the omitted node `2`. -/
theorem c3_witness :
    ((top_sort cycleDemo).length = cycleDemo.nodes.length ↔ Acyclic cycleDemo) ∧
    (top_sort cycleDemo).length < cycleDemo.nodes.length ∧
    (2 ∉ top_sort cycleDemo ↔ ∃ c, Relation.TransGen (step cycleDemo) c c
      ∧ Relation.ReflTransGen (step cycleDemo) c 2) := by
  have h := c3_amended_top_sort_length_and_omissions
    (by decide : WF cycleDemo)
  have hcyc : ¬ Acyclic cycleDemo := by
    intro hA
    exact hA 0 (Relation.TransGen.tail
      (Relation.TransGen.single (show step cycleDemo 0 1 by decide))
      (show step cycleDemo 1 0 by decide))
  exact ⟨h.1, h.2.1 hcyc, h.2.2 2 (by decide)⟩

end StudentCode
